import Mathlib

/-!
Verification of the plak-cli configuration stores.

This file gives a shallow embedding in Lean 4 of the text-processing core of
the tool: the hosts-file editor (`src/plak/domain.py`), the SSH-config
parser/editor (`src/plak/server.py`) and the SSH key inventory
(`src/plak/sshkey.py`).  Files are modelled as their textual content
(`String`, or `List String` of `readlines`-style lines, each line keeping its
trailing newline); directory listings are modelled as lists of entries; calls
to external processes are modelled as explicit oracle parameters.  Python
string primitives (`strip`, `split`, `splitlines`, `in`, `startswith`,
`str.split()`, `re.split`) are embedded as executable functions on `List Char`
restricted to the ASCII whitespace conventions actually exercised by the tool.
-/

/-- ASCII whitespace, the character class Python's `str.strip()` / `re \s`
strip and split on for the ASCII inputs handled here. -/
def isPyWs (c : Char) : Bool :=
  c = ' ' || c = '\t' || c = '\n' || c = '\r' || c = '\x0b' || c = '\x0c'

/-- Characters treated as line breaks by Python's `str.splitlines`. -/
def isLineBreak (c : Char) : Bool :=
  c = '\n' || c = '\r' || c = '\x0b' || c = '\x0c' ||
  c = '\x1c' || c = '\x1d' || c = '\x1e' || c = '\x85' || c = '\u2028' || c = '\u2029'

/-- Drop characters satisfying `p` from both ends of a character list. -/
def stripEnds (p : Char → Bool) (cs : List Char) : List Char :=
  ((cs.dropWhile p).reverse.dropWhile p).reverse

/-- Python `s.strip()` (no argument): remove whitespace from both ends. -/
def pyStrip (s : String) : String :=
  String.mk (stripEnds isPyWs s.data)

/-- Python `s.startswith(pre)`. -/
def pyStartsWith (s pre : String) : Bool :=
  pre.data.isPrefixOf s.data

/-- Python `s.endswith(suf)`. -/
def pyEndsWith (s suf : String) : Bool :=
  suf.data.isSuffixOf s.data

/-- Substring test on character lists: does `p` occur as a contiguous infix? -/
def listHasInfix (p : List Char) : List Char → Bool
  | [] => p.isEmpty
  | c :: cs => p.isPrefixOf (c :: cs) || listHasInfix p cs

/-- Python `pat in s`: substring containment. -/
def pyIn (pat s : String) : Bool :=
  listHasInfix pat.data s.data

/-- Helper for whitespace tokenization: `cur` is the (reversed) token being
accumulated. -/
def wsTokensAux (cur : List Char) : List Char → List String
  | [] => if cur.isEmpty then [] else [String.mk cur.reverse]
  | c :: cs =>
    if isPyWs c then
      if cur.isEmpty then wsTokensAux [] cs
      else String.mk cur.reverse :: wsTokensAux [] cs
    else wsTokensAux (c :: cur) cs

/-- Python `s.split()` (no argument): split on whitespace runs, no empty
tokens. -/
def pyWsSplit (s : String) : List String :=
  wsTokensAux [] s.data

/-- Python `re.split(r"\s+", s)` as applied by the tool, i.e. always to an
already `strip()`-ped string: identical to `s.split()` except that the empty
string yields `[""]`. -/
def pyReSplitWs (s : String) : List String :=
  if s = "" then [""] else pyWsSplit s

/-- Space-join, Python `" ".join(xs)`. -/
def pyJoinSpace : List String → String
  | [] => ""
  | [x] => x
  | x :: y :: ys => x ++ " " ++ pyJoinSpace (y :: ys)

/-! ## HostsStore (`src/plak/domain.py`)

`delete_hosts_entry` (lines 112-170) copies the hosts file, filters its lines
and writes the result back.  We embed the pure core: the transformation of the
line list and the `modified` flag (`False` is reported as `NotFound`).  Lines
are `readlines`-style, keeping their trailing newline. -/

/-- The test of `domain.py:144`: `domain in line and not
line.strip().startswith('#')`. -/
def hostsLineHit (domain line : String) : Bool :=
  pyIn domain line && !(pyStartsWith (pyStrip line) "#")

/-- Effect of one iteration of the loop at `domain.py:143-155` on `new_lines`:
the (zero or one) output lines contributed by `line`. -/
def hostsLineEdit (domain line : String) : List String :=
  if pyIn domain line && !(pyStartsWith (pyStrip line) "#") then
    let parts := pyReSplitWs (pyStrip line)
    if parts.length > 2 then
      match parts with
      | ip :: doms =>
        let remaining := doms.filter (fun x => !(x = domain))
        if remaining.isEmpty then []
        else [ip ++ "\t" ++ pyJoinSpace remaining ++ "\n"]
      | [] => []
    else []
  else [line]

/-- `delete_hosts_entry` (`domain.py:112-170`), pure core: the rewritten line
list and the `modified` flag; `modified = false` is the `NotFound` outcome and
the file is then left unwritten. -/
def delete_hosts_entry (domain : String) (lines : List String) :
    List String × Bool :=
  (lines.flatMap (hostsLineEdit domain), lines.any (hostsLineHit domain))

/-- `parse_hosts` (`domain.py:31-66`): entries from non-comment lines with at
least two whitespace tokens, one entry per domain. -/
def parse_hosts (lines : List String) : List (String × String) :=
  lines.flatMap (fun line =>
    let l := pyStrip line
    if l = "" || pyStartsWith l "#" then []
    else
      match pyReSplitWs l with
      | [] => []
      | [_] => []
      | ip :: doms => doms.map (fun d => (ip, d)))

example : delete_hosts_entry "example.com" ["192.168.1.10 test.example.com\n"] = ([], true) := by decide

example : delete_hosts_entry "example.com" ["1.1.1.1 test.example.com foo.org\n"] =
    (["1.1.1.1\ttest.example.com foo.org\n"], true) := by decide

example : delete_hosts_entry "test.example.com"
    ["127.0.0.1\tlocalhost\n", "192.168.1.10    dev.example.com test.example.com staging.example.com\n"] =
    (["127.0.0.1\tlocalhost\n", "192.168.1.10\tdev.example.com staging.example.com\n"], true) := by decide

/-! ## SshConfigStore (`src/plak/server.py`)

`parse_ssh_config` (lines 24-67) splits the whole file content with
`re.split(r'(?i)^Host\s+', content, flags=re.MULTILINE)`.  The splitter below
walks the character list tracking whether the scanner sits at a line start
(string start, or just after a newline); at a line-start occurrence of
`Host`/`host`/... followed by a whitespace character it ends the current
segment, consumes the (greedy) whitespace run, and starts the next segment.
`skip` is true while inside that whitespace run. -/

/-- Case-insensitive `Host` followed by one whitespace character: the start of
a match of `(?i)^Host\s+`. -/
def isHostWsMatch (c1 c2 c3 c4 c5 : Char) : Bool :=
  (c1 = 'H' || c1 = 'h') && (c2 = 'o' || c2 = 'O') &&
  (c3 = 's' || c3 = 'S') && (c4 = 't' || c4 = 'T') && isPyWs c5

/-- Does a match of `(?i)Host\s+` begin at the head of the list (line-start
context supplied by the caller)? -/
def isMatchAt : List Char → Bool
  | c1 :: c2 :: c3 :: c4 :: c5 :: _ => isHostWsMatch c1 c2 c3 c4 c5
  | _ => false

/-- Scanner for `re.split(r'(?i)^Host\s+', content, flags=re.MULTILINE)`.
`skip` is true while consuming the greedy `\s+` of a match; `atStart` is true
when the current position is at a line start; `cur` holds the current segment
reversed. -/
def splitAux : Bool → Bool → List Char → List Char → List String
  | _, _, cur, [] => [String.mk cur.reverse]
  | skip, atStart, cur, c1 :: c2 :: c3 :: c4 :: c5 :: cs2 =>
    if skip && isPyWs c1 then
      splitAux true (c1 = '\n') cur (c2 :: c3 :: c4 :: c5 :: cs2)
    else if atStart && isHostWsMatch c1 c2 c3 c4 c5 then
      String.mk cur.reverse :: splitAux true (c5 = '\n') [] cs2
    else splitAux false (c1 = '\n') (c1 :: cur) (c2 :: c3 :: c4 :: c5 :: cs2)
  | skip, _, cur, c :: cs =>
    if skip && isPyWs c then splitAux true (c = '\n') cur cs
    else splitAux false (c = '\n') (c :: cur) cs

/-- `re.split(r'(?i)^Host\s+', content, flags=re.MULTILINE)` at `server.py:44`. -/
def splitHostBlocks (content : String) : List String :=
  splitAux false true [] content.data

/-- Python `s.splitlines()` on the line-break classes of `isLineBreak`, with
`\r\n` as a single break and no empty trailing line.  `afterCr` records that
the previous character was a `\r` whose break was already emitted, so that a
directly following `\n` is swallowed. -/
def pySplitlinesAux (afterCr : Bool) (cur : List Char) : List Char → List String
  | [] => [String.mk cur.reverse]
  | c :: rest =>
    if afterCr && c = '\n' then
      if rest.isEmpty then [] else pySplitlinesAux false [] rest
    else if isLineBreak c then
      String.mk cur.reverse
        :: (if rest.isEmpty then [] else pySplitlinesAux (c = '\r') [] rest)
    else pySplitlinesAux false (c :: cur) rest

/-- Python `s.splitlines()`. -/
def pySplitlines (s : String) : List String :=
  if s = "" then [] else pySplitlinesAux false [] s.data

/-- Negative match predicate for the block splitter: no match of
`(?i)^Host\s+` begins anywhere in the list, scanning with the given
line-start flag. -/
def noMatchB : Bool → List Char → Bool
  | _, [] => true
  | atStart, c :: cs => !(atStart && isMatchAt (c :: cs)) && noMatchB (c = '\n') cs

/-- Newline-terminated concatenation of lines, the layout `add_ssh_config`
writes. -/
def joinNl : List String → String
  | [] => ""
  | l :: ls => l ++ "\n" ++ joinNl ls

/-- Python `l.split(' ', 1)` restricted to the two-part outcome: `some (k, v)`
when `l` contains a space (split at the first one), `none` otherwise (the
one-part outcome, which `parse_ssh_config` skips). -/
def splitOnceAux (acc : List Char) : List Char → Option (String × String)
  | [] => none
  | c :: cs =>
    if c = ' ' then some (String.mk acc.reverse, String.mk cs)
    else splitOnceAux (c :: acc) cs

/-- Python `l.split(' ', 1)` (see `splitOnceAux`). -/
def pySplitOnceSpace (s : String) : Option (String × String) :=
  splitOnceAux [] s.data

/-- Python-dict assignment `m[k] = v` on an insertion-ordered association
list: overwrite in place if the key exists, else append. -/
def dictSet (m : List (String × String)) (k v : String) :
    List (String × String) :=
  match m with
  | [] => [(k, v)]
  | (k1, v1) :: t => if k1 = k then (k, v) :: t else (k1, v1) :: dictSet t k v

/-- Python-dict lookup `m.get(k)`. -/
def dictGet (k : String) : List (String × String) → Option String
  | [] => none
  | (k1, v1) :: t => if k1 = k then some v1 else dictGet k t

/-- Body of the directive loop at `server.py:53-63`: strip the line, skip
blanks and comments, `split(' ', 1)`, skip one-part results, store
`key.strip() -> value.strip()`. -/
def parse_directive_step (acc : List (String × String)) (line : String) :
    List (String × String) :=
  let l := pyStrip line
  if l = "" || pyStartsWith l "#" then acc
  else
    match pySplitOnceSpace l with
    | none => acc
    | some (k, v) => dictSet acc (pyStrip k) (pyStrip v)

/-- One `Host` block (`server.py:45-65`): `None` when the block has no lines;
otherwise the profile dict seeded with `Name = lines[0].strip()` and filled by
the directive loop. -/
def parseBlock (block : String) : Option (List (String × String)) :=
  match pySplitlines block with
  | [] => none
  | l0 :: rest => some (rest.foldl parse_directive_step [("Name", pyStrip l0)])

/-- `parse_ssh_config` (`server.py:24-67`) on the file content: all `Host`
blocks after the first split segment, each parsed into a profile dict. -/
def parse_ssh_config (content : String) : List (List (String × String)) :=
  ((splitHostBlocks content).drop 1).filterMap parseBlock

/-- Decimal rendering of a natural number (model of Python `str` on a
non-negative `int`), with structural fuel for kernel reducibility. -/
def natToCharsAux : Nat → Nat → List Char
  | 0, _ => []
  | fuel + 1, n =>
    if n < 10 then [Char.ofNat (48 + n)]
    else natToCharsAux fuel (n / 10) ++ [Char.ofNat (48 + n % 10)]

/-- Model of Python `str(i)` for `int` values. -/
def intToString (i : Int) : String :=
  match i with
  | Int.ofNat n => String.mk (natToCharsAux (n + 1) n)
  | Int.negSucc n => String.mk ('-' :: natToCharsAux (n + 2) (n + 1))

/-- `add_ssh_config` (`server.py:69-98`) appends a block to the config file
content; the `IdentityFile` line is written only when `identity_file` is
truthy (a non-`None`, non-empty string). -/
def add_ssh_config (cfg name hostname user : String) (port : Int)
    (identity_file : Option String) : String :=
  cfg ++ "\nHost " ++ name ++ "\n" ++
    "    HostName " ++ hostname ++ "\n" ++
    "    User " ++ user ++ "\n" ++
    "    Port " ++ intToString port ++ "\n" ++
    (match identity_file with
     | some s => if s = "" then "" else "    IdentityFile " ++ s ++ "\n"
     | none => "")

/-- The match test of `server.py:122`:
`lines[i].strip().startswith(f"Host {name}")`. -/
def matchesHost (name line : String) : Bool :=
  pyStartsWith (pyStrip line) ("Host " ++ name)

/-- The block-continuation test of `server.py:125`: the line starts with a
space or tab or is blank. -/
def isContLine (line : String) : Bool :=
  pyStartsWith line " " || pyStartsWith line "\t" || pyStrip line = ""

/-- The scan of `server.py:119-131`: find the first line matching
`Host <name>`, drop it together with its following continuation lines, keep
everything else; `none` when no line matches. -/
def findHostBlock (name : String) : List String → Option (List String)
  | [] => none
  | l :: rest =>
    if matchesHost name l then some (rest.dropWhile isContLine)
    else (findHostBlock name rest).map (fun ls => l :: ls)

/-- `delete_ssh_config` (`server.py:100-140`), pure core on the line list:
`(false, lines)` models the `NotFound` return before any write; on success the
rewritten line list is returned. -/
def delete_ssh_config (name : String) (lines : List String) :
    Bool × List String :=
  match findHostBlock name lines with
  | none => (false, lines)
  | some ls => (true, ls)

example : delete_ssh_config "web" ["Host web2\n", "    HostName x\n"] = (true, []) := by decide
example : delete_ssh_config "web2" ["Host web\n", "    HostName x\n"] =
    (false, ["Host web\n", "    HostName x\n"]) := by decide
example : parse_ssh_config "Host web\n    HostName\texample.com\n" = [[("Name", "web")]] := by decide
example : parse_ssh_config "Host testserver1\n    HostName 192.168.1.10\n    User testuser\n    Port 22\n\nHost testserver2\n    HostName 10.0.0.1\n" =
    [[("Name", "testserver1"), ("HostName", "192.168.1.10"), ("User", "testuser"), ("Port", "22")],
     [("Name", "testserver2"), ("HostName", "10.0.0.1")]] := by decide
example : parse_ssh_config (add_ssh_config "" "web" "" "u" 22 none) =
    [[("Name", "web"), ("User", "u"), ("Port", "22")]] := by decide
example : parse_ssh_config (add_ssh_config "x" "web" "1.2.3.4" "u" 2222 (some "~/.ssh/id_rsa")) =
    [[("Name", "web"), ("HostName", "1.2.3.4"), ("User", "u"), ("Port", "2222"),
      ("IdentityFile", "~/.ssh/id_rsa")]] := by decide

/-! ## SshKeyStore (`src/plak/sshkey.py`)

The key directory is modelled as `Option (List SshDirEntry)`: `none` when the
directory does not exist, otherwise the `os.listdir` listing, where each entry
carries its name and whether it is a regular file.  `os.path.exists` on
`<name>.pub` is existence of an entry of that name of any kind;
`os.path.isfile` is the `isFile` flag. -/

/-- One entry of the `~/.ssh` directory listing. -/
structure SshDirEntry where
  name : String
  isFile : Bool
deriving DecidableEq, Repr

/-- One record returned by `list_ssh_keys`. -/
structure SshKeyRecord where
  name : String
  path : String
  has_public : Bool
deriving DecidableEq, Repr

/-- `list_ssh_keys` (`sshkey.py:23-58`): empty when the directory is absent;
otherwise one record per regular file whose name does not end in `.pub` and is
not reserved, with `has_public` set iff an entry named `<name>.pub` exists. -/
def list_ssh_keys (ssh_dir : String) (listing : Option (List SshDirEntry)) :
    List SshKeyRecord :=
  match listing with
  | none => []
  | some entries =>
    entries.filterMap (fun e =>
      if e.isFile && !(pyEndsWith e.name ".pub") &&
          !(["authorized_keys", "known_hosts", "config"].contains e.name) then
        some { name := e.name, path := ssh_dir ++ "/" ++ e.name,
               has_public := entries.any (fun e2 => e2.name = e.name ++ ".pub") }
      else none)

/-- The record returned by `get_key_details`. -/
structure KeyDetails where
  bits : String
  fingerprint : String
  comment : String
  keyType : String
deriving DecidableEq, Repr

/-- Python `s.strip('()')`: remove parentheses from both ends. -/
def pyStripParens (s : String) : String :=
  String.mk (stripEnds (fun c => c = '(' || c = ')') s.data)

/-- Python `os.path.basename`: the part after the last `/`. -/
def pyBasename (p : String) : String :=
  String.mk ((p.data.reverse.takeWhile (fun c => !(c = '/'))).reverse)

/-- The fallback record of `sshkey.py:104-109`. -/
def degenerateDetails (key_path : String) : KeyDetails :=
  { bits := "?", fingerprint := "?", comment := pyBasename key_path,
    keyType := "?" }

/-- `get_key_details` (`sshkey.py:60-109`).  `path_exists` models
`os.path.exists(key_path)`; `run` models the `ssh-keygen -l -f` call: `none`
when the call raises, otherwise `some (returncode, stdout)`.  `none` as result
is the `NotFound` outcome. -/
def get_key_details (path_exists : Bool) (key_path : String)
    (run : Option (Int × String)) : Option KeyDetails :=
  if !path_exists then none
  else if pyEndsWith key_path ".pub" then
    match run with
    | some (rc, out) =>
      if rc = 0 then
        match pyWsSplit (pyStrip out) with
        | p0 :: p1 :: p2 :: p3 :: _ =>
          some { bits := p0, fingerprint := p1, comment := p2,
                 keyType := pyStripParens p3 }
        | _ => some (degenerateDetails key_path)
      else some (degenerateDetails key_path)
    | none => some (degenerateDetails key_path)
  else some (degenerateDetails key_path)

example : list_ssh_keys "~/.ssh" (some [⟨"id_rsa", true⟩, ⟨"id_rsa.pub", true⟩, ⟨"known_hosts", true⟩, ⟨"config", true⟩]) =
    [⟨"id_rsa", "~/.ssh/id_rsa", true⟩] := by decide
example : get_key_details true "/home/u/.ssh/id_rsa.pub" (some (0, "2048 SHA256:abcdef user@host (RSA)\n")) =
    some ⟨"2048", "SHA256:abcdef", "user@host", "RSA"⟩ := by decide
example : get_key_details true "/home/u/.ssh/id_rsa" (some (0, "2048 SHA256:abcdef user@host (RSA)\n")) =
    some ⟨"?", "?", "id_rsa", "?"⟩ := by decide
example : get_key_details false "/nonexistent/path" none = none := by decide

/-- Description of one directive line used to specify the directive loop: the
key/value pair a line contributes, `none` when the line is skipped (blank,
comment, or no space to split at). -/
def lineKV (line : String) : Option (String × String) :=
  let l := pyStrip line
  if l = "" || pyStartsWith l "#" then none
  else (pySplitOnceSpace l).map (fun p => (pyStrip p.1, pyStrip p.2))

/-- Arguments on which `add_ssh_config` round-trips through
`parse_ssh_config`: nonempty, free of line-break characters, and neither
starting nor ending in whitespace. -/
def cleanArg (s : String) : Bool :=
  !s.data.isEmpty && s.data.all (fun c => !isLineBreak c) &&
  !isPyWs (s.data.headD ' ') && !isPyWs (s.data.getLastD ' ')

/-! ## General helper lemmas -/

theorem dropWhile_append_all {α} (p : α → Bool) (xs ys : List α)
    (h : ∀ x ∈ xs, p x = true) :
    (xs ++ ys).dropWhile p = ys.dropWhile p := by
  induction xs with
  | nil => rfl
  | cons x xs ih =>
    have hx := h x (by simp)
    simp only [List.cons_append, List.dropWhile_cons, hx, if_true]
    exact ih (fun a ha => h a (by simp [ha]))

theorem dropWhile_cons_false {α} (p : α → Bool) (x : α) (xs : List α)
    (h : p x = false) :
    (x :: xs).dropWhile p = x :: xs := by
  simp [List.dropWhile_cons, h]

theorem flatMap_id_of_eq {α} (f : α → List α) (xs : List α)
    (h : ∀ x ∈ xs, f x = [x]) :
    xs.flatMap f = xs := by
  induction xs with
  | nil => rfl
  | cons x xs ih =>
    simp only [List.flatMap_cons, h x (by simp)]
    simp only [List.singleton_append]
    rw [ih (fun a ha => h a (by simp [ha]))]

theorem getLast?_cons_elim {α} (p : α) (L : List α) :
    (p :: L).getLast? =
      match L.getLast? with
      | none => some p
      | some q => some q := by
  induction L with
  | nil => rfl
  | cons x xs ih =>
    cases hx : (x :: xs).getLast? with
    | none => simp [List.getLast?] at hx
    | some q => simp [List.getLast?_cons_cons, hx]

theorem dictGet_dictSet (m : List (String × String)) (k k1 v : String) :
    dictGet k (dictSet m k1 v) = if k1 = k then some v else dictGet k m := by
  induction m with
  | nil => simp [dictSet, dictGet]
  | cons p t ih =>
    by_cases h1 : p.1 = k1
    · by_cases h2 : k1 = k <;> simp [dictSet, dictGet, h1, h2]
    · by_cases h2 : p.1 = k
      · have h3 : ¬(k = k1) := fun he => h1 (h2.trans he)
        have h4 : ¬(k1 = k) := fun he => h3 he.symm
        simp [dictSet, dictGet, h1, h2, h3, h4]
      · simp [dictSet, dictGet, h1, h2, ih]

theorem length_filterMap_ite {α β} (f : α → β) (p : α → Bool) (l : List α) :
    (l.filterMap (fun a => if p a then some (f a) else none)).length
      = (l.filter p).length := by
  induction l with
  | nil => rfl
  | cons x xs ih =>
    by_cases hx : p x <;> simp [List.filterMap_cons, List.filter_cons, hx, ih]

/-! ## C1, C2, C3: divergences of the delete operations from the spec -/

/-- C1: the claim states that `delete(domain)` never removes or alters a line
in which the domain occurs only as a proper substring of another token, and in
particular that `delete("example.com")` leaves a line containing only
`test.example.com` unchanged.  The code violates this: the substring
pre-filter at `domain.py:144` fires on the line and, the line having only two
whitespace tokens, the `len(parts) > 2` branch is skipped, so the loop drops
the line entirely and reports the file as modified. -/
theorem c1_substring_line_dropped :
    delete_hosts_entry "example.com" ["192.168.1.10 test.example.com\n"]
      = ([], true) := by decide

/-- C2: the claim states that `delete(name)` never removes a `Host` block
whose name merely has `name` as a prefix.  The code violates this: the test at
`server.py:122` is `startswith(f"Host {name}")`, so deleting `web` in a config
whose only block is `Host web2` deletes that block (here: the whole file). -/
theorem c2_prefix_block_deleted :
    delete_ssh_config "web" ["Host web2\n", "    HostName x\n"] = (true, []) := by
  decide

/-- C3: the claim states that success is reported only when an exact
whitespace-token occurrence of the domain was removed.  The code violates
this: on a line where `example.com` occurs only inside `test.example.com`, the
substring pre-filter fires, no token equals the domain so every domain is
kept (the line is merely re-joined with a tab), yet `modified` is set and
success is reported instead of `NotFound`. -/
theorem c3_success_without_token_removal :
    delete_hosts_entry "example.com" ["1.1.1.1 test.example.com foo.org\n"]
      = (["1.1.1.1\ttest.example.com foo.org\n"], true) := by decide

/-! ## C7: delete on a config without a matching block -/

theorem findHostBlock_eq_none (name : String) (lines : List String)
    (h : ∀ l ∈ lines, matchesHost name l = false) :
    findHostBlock name lines = none := by
  induction lines with
  | nil => rfl
  | cons l rest ih =>
    have hl := h l (by simp)
    simp only [findHostBlock, hl, Bool.false_eq_true, if_false]
    rw [ih (fun a ha => h a (by simp [ha]))]
    rfl

/-- C7: when no line of the config matches the deletion scan (its stripped
form does not start with `Host <name>`), `delete_ssh_config` reports
`NotFound` (`false`) and the line list is returned unchanged — the code
returns before any write, so the file is byte-for-byte untouched.  (Which
lines count as matching is the code's literal-prefix criterion; its mismatch
with exact-name matching is the subject of C2.) -/
theorem c7_notfound_leaves_file (name : String) (lines : List String)
    (h : ∀ l ∈ lines, matchesHost name l = false) :
    delete_ssh_config name lines = (false, lines) := by
  simp [delete_ssh_config, findHostBlock_eq_none name lines h]

theorem c7_witness :
    (∀ l ∈ ["Host alpha\n", "    HostName 10.0.0.1\n", "\n"], matchesHost "beta" l = false)
    ∧ delete_ssh_config "beta" ["Host alpha\n", "    HostName 10.0.0.1\n", "\n"]
        = (false, ["Host alpha\n", "    HostName 10.0.0.1\n", "\n"]) :=
  ⟨by decide, c7_notfound_leaves_file _ _ (by decide)⟩

/-! ## C10: only the first matching block is deleted -/

theorem findHostBlock_append_no_match (name : String) (pre ls : List String)
    (h : ∀ l ∈ pre, matchesHost name l = false) :
    findHostBlock name (pre ++ ls)
      = (findHostBlock name ls).map (fun r => pre ++ r) := by
  induction pre with
  | nil =>
    simp only [List.nil_append]
    cases findHostBlock name ls <;> simp
  | cons l rest ih =>
    have hl := h l (by simp)
    simp only [List.cons_append, findHostBlock, hl, Bool.false_eq_true, if_false,
      List.append_eq]
    rw [ih (fun a ha => h a (by simp [ha]))]
    cases findHostBlock name ls <;> simp

/-- C10: when the config contains two blocks whose header line matches the
scan for `name`, deletion removes only the first one — its header `h1` and its
continuation lines `b1` — and the second matching header `h2` together with
everything after it survives verbatim. -/
theorem c10_first_block_only (name h1 h2 : String) (pre b1 rest : List String)
    (hpre : ∀ l ∈ pre, matchesHost name l = false)
    (hh1 : matchesHost name h1 = true)
    (hb1 : ∀ l ∈ b1, isContLine l = true)
    (_hh2 : matchesHost name h2 = true)
    (hh2c : isContLine h2 = false) :
    delete_ssh_config name (pre ++ h1 :: (b1 ++ h2 :: rest))
      = (true, pre ++ h2 :: rest) := by
  rw [delete_ssh_config, findHostBlock_append_no_match name pre _ hpre]
  simp only [findHostBlock, hh1, if_true]
  rw [dropWhile_append_all isContLine b1 (h2 :: rest) hb1,
    dropWhile_cons_false isContLine h2 rest hh2c]
  rfl

theorem c10_witness :
    delete_ssh_config "web" ["# c\n", "Host web\n", "    HostName 1.1.1.1\n", "\n", "Host web\n", "    HostName 2.2.2.2\n"]
      = (true, ["# c\n", "Host web\n", "    HostName 2.2.2.2\n"]) :=
  c10_first_block_only "web" "Host web\n" "Host web\n" ["# c\n"]
    ["    HostName 1.1.1.1\n", "\n"] ["    HostName 2.2.2.2\n"]
    (by decide) (by decide) (by decide) (by decide) (by decide)

/-! ## C4: surgery on a multi-domain hosts line -/

theorem hostsLineEdit_miss (d l : String) (h : pyIn d l = false) :
    hostsLineEdit d l = [l] := by
  simp [hostsLineEdit, h]

theorem hostsLineHit_miss (d l : String) (h : pyIn d l = false) :
    hostsLineHit d l = false := by
  simp [hostsLineHit, h]

/-- C4: on a hosts file whose line `line` parses into tokens
`ip :: doms` with the deleted domain `d` among `doms`, and whose other lines
do not contain `d`, `delete_hosts_entry` rewrites `line` to the IP, a tab and
the remaining domains space-joined in order (when at least one other domain
remains on a multi-domain line), removes the line entirely when `d` was its
only domain, and passes every other line through verbatim in order, reporting
success. -/
theorem c4_multi_domain_line_surgery (d ip line : String) (doms : List String)
    (pre post : List String)
    (hin : pyIn d line = true)
    (hnc : pyStartsWith (pyStrip line) "#" = false)
    (hparts : pyReSplitWs (pyStrip line) = ip :: doms)
    (_hd : d ∈ doms)
    (hpre : ∀ l ∈ pre, pyIn d l = false)
    (hpost : ∀ l ∈ post, pyIn d l = false) :
    (2 ≤ doms.length → doms.filter (fun x => !(x = d)) ≠ [] →
      delete_hosts_entry d (pre ++ line :: post)
        = (pre ++ (ip ++ "\t" ++ pyJoinSpace (doms.filter (fun x => !(x = d))) ++ "\n") :: post,
           true))
    ∧ (doms.filter (fun x => !(x = d)) = [] →
      delete_hosts_entry d (pre ++ line :: post) = (pre ++ post, true)) := by
  have hedit_pre : pre.flatMap (hostsLineEdit d) = pre :=
    flatMap_id_of_eq _ _ (fun l hl => hostsLineEdit_miss d l (hpre l hl))
  have hedit_post : post.flatMap (hostsLineEdit d) = post :=
    flatMap_id_of_eq _ _ (fun l hl => hostsLineEdit_miss d l (hpost l hl))
  have hany : (pre ++ line :: post).any (hostsLineHit d) = true := by
    simp [List.any_append, List.any_cons, hostsLineHit, hin, hnc]
  constructor
  · intro hlen hne
    cases hF : doms.filter (fun x => !(x = d)) with
    | nil => exact absurd hF hne
    | cons a as =>
      have hedit : hostsLineEdit d line
          = [ip ++ "\t" ++ pyJoinSpace (a :: as) ++ "\n"] := by
        simp only [hostsLineEdit, hin, hnc, hparts, Bool.not_false, Bool.and_self,
          if_true]
        rw [if_pos (by simp only [List.length_cons]; omega)]
        simp only [hF, List.isEmpty_cons, Bool.false_eq_true, if_false]
      simp only [delete_hosts_entry, List.flatMap_append, List.flatMap_cons,
        hedit_pre, hedit_post, hedit, hany, hF, List.singleton_append,
        List.cons_append, List.nil_append]
  · intro hF
    have hedit : hostsLineEdit d line = [] := by
      simp only [hostsLineEdit, hin, hnc, hparts, Bool.not_false, Bool.and_self,
        if_true]
      by_cases hlen : (ip :: doms).length > 2
      · rw [if_pos hlen]
        simp only [hF, List.isEmpty_nil, if_true]
      · rw [if_neg hlen]
    simp only [delete_hosts_entry, List.flatMap_append, List.flatMap_cons,
      hedit_pre, hedit_post, hedit, hany, List.nil_append]

theorem c4_witness :
    delete_hosts_entry "test.example.com"
        ["127.0.0.1\tlocalhost\n",
         "192.168.1.10 dev.example.com test.example.com staging.example.com\n",
         "203.0.113.10 example.com www.example.com\n"]
      = (["127.0.0.1\tlocalhost\n",
          "192.168.1.10\tdev.example.com staging.example.com\n",
          "203.0.113.10 example.com www.example.com\n"], true) :=
  (c4_multi_domain_line_surgery "test.example.com" "192.168.1.10"
    "192.168.1.10 dev.example.com test.example.com staging.example.com\n"
    ["dev.example.com", "test.example.com", "staging.example.com"]
    ["127.0.0.1\tlocalhost\n"] ["203.0.113.10 example.com www.example.com\n"]
    (by decide) (by decide) (by decide) (by decide) (by decide) (by decide)).1
    (by decide) (by decide)

/-! ## C8: listing the key directory -/

/-- C8: `list_ssh_keys` returns the empty list when the directory is absent;
over a listing it returns exactly one record per regular file whose name does
not end in `.pub` and is not one of the reserved names, with `has_public` set
iff a sibling entry `<name>.pub` exists; on the directory
`{id_rsa, id_rsa.pub, known_hosts, config}` it returns exactly the record for
`id_rsa` with `has_public` true. -/
theorem c8_list_keys (d : String) :
    list_ssh_keys d none = []
    ∧ (∀ entries r, r ∈ list_ssh_keys d (some entries) ↔
        ∃ e, e ∈ entries
          ∧ (e.isFile && !(pyEndsWith e.name ".pub")
              && !(["authorized_keys", "known_hosts", "config"].contains e.name)) = true
          ∧ r = { name := e.name, path := d ++ "/" ++ e.name,
                  has_public := entries.any (fun e2 => e2.name = e.name ++ ".pub") })
    ∧ (∀ entries, (list_ssh_keys d (some entries)).length
        = (entries.filter (fun e => e.isFile && !(pyEndsWith e.name ".pub")
            && !(["authorized_keys", "known_hosts", "config"].contains e.name))).length)
    ∧ list_ssh_keys "~/.ssh"
        (some [⟨"id_rsa", true⟩, ⟨"id_rsa.pub", true⟩, ⟨"known_hosts", true⟩, ⟨"config", true⟩])
      = [⟨"id_rsa", "~/.ssh/id_rsa", true⟩] := by
  refine ⟨rfl, ?_, ?_, by decide⟩
  · intro entries r
    simp only [list_ssh_keys, List.mem_filterMap]
    constructor
    · rintro ⟨e, he, hfe⟩
      by_cases hc : (e.isFile && !(pyEndsWith e.name ".pub")
          && !(["authorized_keys", "known_hosts", "config"].contains e.name)) = true
      · rw [if_pos hc] at hfe
        exact ⟨e, he, hc, (Option.some.injEq _ _ ▸ hfe).symm⟩
      · rw [if_neg hc] at hfe
        exact absurd hfe (by simp)
    · rintro ⟨e, he, hc, hr⟩
      exact ⟨e, he, by rw [if_pos hc, hr]⟩
  · intro entries
    exact length_filterMap_ite _ _ entries

/-! ## C9: key details -/

theorem get_key_details_isSome (key_path : String) (run : Option (Int × String)) :
    ∃ dtl, get_key_details true key_path run = some dtl := by
  by_cases hp : pyEndsWith key_path ".pub" = true
  · cases run with
    | none => exact ⟨degenerateDetails key_path, by simp [get_key_details, hp]⟩
    | some pr =>
      rcases pr with ⟨rc, out⟩
      by_cases hrc : rc = 0
      · subst hrc
        rcases h4 : pyWsSplit (pyStrip out) with _ | ⟨a, _ | ⟨b, _ | ⟨c2, _ | ⟨e, tl⟩⟩⟩⟩
        · exact ⟨degenerateDetails key_path, by simp [get_key_details, hp, h4]⟩
        · exact ⟨degenerateDetails key_path, by simp [get_key_details, hp, h4]⟩
        · exact ⟨degenerateDetails key_path, by simp [get_key_details, hp, h4]⟩
        · exact ⟨degenerateDetails key_path, by simp [get_key_details, hp, h4]⟩
        · exact ⟨{ bits := a, fingerprint := b, comment := c2, keyType := pyStripParens e },
            by simp [get_key_details, hp, h4]⟩
      · exact ⟨degenerateDetails key_path, by simp [get_key_details, hp, hrc]⟩
  · exact ⟨degenerateDetails key_path, by simp [get_key_details, hp]⟩

/-- C9: `get_key_details` returns `none` (`NotFound`) exactly when the path
does not exist; for an existing `.pub` path whose fingerprint call returns
exit status 0 and at least four whitespace tokens it returns the four
positional fields with the parentheses stripped from the type; in every other
existing-path case (non-`.pub` path, raised call, non-zero exit status, fewer
than four tokens) it returns the degenerate record whose comment is the
file's base name. -/
theorem c9_key_details (path_exists : Bool) (key_path : String)
    (run : Option (Int × String)) :
    (get_key_details path_exists key_path run = none ↔ path_exists = false)
    ∧ (∀ out p0 p1 p2 p3 ps, path_exists = true →
        pyEndsWith key_path ".pub" = true → run = some (0, out) →
        pyWsSplit (pyStrip out) = p0 :: p1 :: p2 :: p3 :: ps →
        get_key_details path_exists key_path run
          = some { bits := p0, fingerprint := p1, comment := p2,
                   keyType := pyStripParens p3 })
    ∧ (path_exists = true → pyEndsWith key_path ".pub" = false →
        get_key_details path_exists key_path run = some (degenerateDetails key_path))
    ∧ (path_exists = true → run = none →
        get_key_details path_exists key_path run = some (degenerateDetails key_path))
    ∧ (∀ rc out, path_exists = true → run = some (rc, out) → rc ≠ 0 →
        get_key_details path_exists key_path run = some (degenerateDetails key_path))
    ∧ (∀ out, path_exists = true → run = some (0, out) →
        (pyWsSplit (pyStrip out)).length < 4 →
        get_key_details path_exists key_path run = some (degenerateDetails key_path)) := by
  refine ⟨?_, ?_, ?_, ?_, ?_, ?_⟩
  · cases path_exists with
    | false => simp [get_key_details]
    | true =>
      obtain ⟨dtl, hdtl⟩ := get_key_details_isSome key_path run
      rw [hdtl]
      simp
  · intro out p0 p1 p2 p3 ps he hp hr hsplit
    subst he hr
    simp [get_key_details, hp, hsplit]
  · intro he hp
    subst he
    simp [get_key_details, hp]
  · intro he hr
    subst he hr
    simp [get_key_details]
  · intro rc out he hr hrc
    subst he hr
    simp [get_key_details, hrc]
  · intro out he hr hlen
    subst he hr
    by_cases hp : pyEndsWith key_path ".pub" = true
    · rcases h4 : pyWsSplit (pyStrip out) with _ | ⟨a, _ | ⟨b, _ | ⟨c2, _ | ⟨e, tl⟩⟩⟩⟩
      · simp [get_key_details, hp, h4]
      · simp [get_key_details, hp, h4]
      · simp [get_key_details, hp, h4]
      · simp [get_key_details, hp, h4]
      · rw [h4] at hlen
        simp [List.length_cons] at hlen
        omega
    · simp [get_key_details, hp]

theorem c9_witness :
    get_key_details false "/nonexistent/path" none = none
    ∧ get_key_details true "/home/u/.ssh/id_rsa.pub"
        (some (0, "2048 SHA256:AbCdEf123456 user@host (RSA)\n"))
      = some { bits := "2048", fingerprint := "SHA256:AbCdEf123456",
               comment := "user@host", keyType := "RSA" }
    ∧ get_key_details true "/home/u/.ssh/id_rsa" (some (0, "x"))
      = some { bits := "?", fingerprint := "?", comment := "id_rsa",
               keyType := "?" } :=
  ⟨(c9_key_details false "/nonexistent/path" none).1.mpr rfl,
   (c9_key_details true "/home/u/.ssh/id_rsa.pub"
      (some (0, "2048 SHA256:AbCdEf123456 user@host (RSA)\n"))).2.1
     "2048 SHA256:AbCdEf123456 user@host (RSA)\n"
     "2048" "SHA256:AbCdEf123456" "user@host" "(RSA)" []
     rfl (by decide) rfl (by decide),
   (c9_key_details true "/home/u/.ssh/id_rsa" (some (0, "x"))).2.2.1
     rfl (by decide)⟩

/-! ## C5: directive parsing inside a Host block -/

theorem parse_directive_step_spec (acc : List (String × String)) (line : String) :
    parse_directive_step acc line =
      match lineKV line with
      | none => acc
      | some p => dictSet acc p.1 p.2 := by
  by_cases hbc : (pyStrip line = "" || pyStartsWith (pyStrip line) "#") = true
  · simp [parse_directive_step, lineKV, hbc]
  · cases hsp : pySplitOnceSpace (pyStrip line) with
    | none => simp [parse_directive_step, lineKV, hbc, hsp]
    | some p =>
      rcases p with ⟨k, v⟩
      simp [parse_directive_step, lineKV, hbc, hsp]

/-- C5 (amended): the directive loop of `parse_ssh_config` enters, for each
body line, the pair described by `lineKV` — the line is skipped when blank, a
comment, or without a space to split at; otherwise it is split at its first
space character into a key and a value, both trimmed — and when several lines
yield the same key the profile reports the value of the last such line
(last-write-wins); moreover every profile produced by `parseBlock` is exactly
the directive loop run over the block's body lines. -/
theorem c5_last_write_wins (bs : List String) (init : List (String × String))
    (k : String) :
    dictGet k (bs.foldl parse_directive_step init) =
      (match ((bs.filterMap lineKV).filter (fun p => p.1 = k)).getLast? with
       | some p => some p.2
       | none => dictGet k init)
    ∧ (∀ block prof, parseBlock block = some prof →
        ∃ l0 rest, pySplitlines block = l0 :: rest
          ∧ prof = rest.foldl parse_directive_step [("Name", pyStrip l0)]) := by
  constructor
  · induction bs generalizing init with
    | nil => simp
    | cons b bs ih =>
      simp only [List.foldl_cons, List.filterMap_cons]
      rw [parse_directive_step_spec init b]
      cases hkv : lineKV b with
      | none =>
        simp only []
        exact ih init
      | some p =>
        rcases p with ⟨k1, v1⟩
        simp only []
        rw [ih (dictSet init k1 v1)]
        by_cases hk : k1 = k
        · subst hk
          simp only [List.filter_cons, decide_eq_true_eq, eq_self_iff_true, if_true]
          rw [getLast?_cons_elim]
          cases hL : ((bs.filterMap lineKV).filter (fun p => p.1 = k1)).getLast? with
          | none => simp [dictGet_dictSet]
          | some q => simp
        · simp only [List.filter_cons, decide_eq_true_eq, if_neg hk]
          cases hL : ((bs.filterMap lineKV).filter (fun p => p.1 = k)).getLast? with
          | none => simp [dictGet_dictSet, hk]
          | some q => simp
  · intro block prof hpb
    cases hsl : pySplitlines block with
    | nil => rw [parseBlock, hsl] at hpb; exact absurd hpb (by simp)
    | cons l0 rest =>
      rw [parseBlock, hsl] at hpb
      exact ⟨l0, rest, rfl, by injection hpb with h; exact h.symm⟩

theorem c5_witness :
    dictGet "HostName"
        (["    HostName 1.1.1.1", "    Port 22", "    HostName 2.2.2.2"].foldl
          parse_directive_step [("Name", "web")]) = some "2.2.2.2" :=
  ((c5_last_write_wins ["    HostName 1.1.1.1", "    Port 22", "    HostName 2.2.2.2"]
      [("Name", "web")] "HostName").1).trans (by decide)

/-- C5 counterexample to the claim as stated: a directive line whose key and
value are separated by a tab (a whitespace boundary that is not a space) is
not entered into the mapping at all — `line.split(' ', 1)` yields one part and
the line is skipped — so the parsed profile of this block has no `HostName`
key, although the claim requires `HostName -> example.com`. -/
theorem c5_counterexample :
    (parse_ssh_config "Host web\n    HostName\texample.com\n").map (dictGet "HostName")
      = [none] := by decide

/-! ## C6: lemmas on strings and the block splitter -/

theorem str_mk_data (s : String) : String.mk s.data = s := by
  cases s
  rfl

theorem str_data_append (s t : String) : (s ++ t).data = s.data ++ t.data := by
  cases s
  cases t
  rfl

theorem headD_mem {α} (l : List α) (d : α) (h : l ≠ []) : l.headD d ∈ l := by
  cases l with
  | nil => exact absurd rfl h
  | cons a t => simp [List.headD]

theorem getLastD_mem {α} (l : List α) (d : α) (h : l ≠ []) : l.getLastD d ∈ l := by
  induction l generalizing d with
  | nil => exact absurd rfl h
  | cons a t ih =>
    cases t with
    | nil => simp [List.getLastD]
    | cons b t2 =>
      rw [List.getLastD_cons]
      exact List.mem_cons_of_mem a (ih a (by simp))

theorem reverse_headD {α} (l : List α) (d : α) :
    l.reverse.headD d = l.getLastD d := by
  rw [List.headD_eq_head?, List.head?_reverse, List.getLastD_eq_getLast?]

theorem pyStrip_eq_self_of (s : String) (h1 : s.data ≠ [])
    (h2 : isPyWs (s.data.headD ' ') = false)
    (h3 : isPyWs (s.data.getLastD ' ') = false) : pyStrip s = s := by
  rcases hs : s.data with _ | ⟨c0, rest⟩
  · exact absurd hs h1
  · have h2c : isPyWs c0 = false := by rw [hs] at h2; simpa using h2
    have hrevne : (c0 :: rest).reverse ≠ [] := by simp
    rcases hrev : (c0 :: rest).reverse with _ | ⟨e, revrest⟩
    · exact absurd hrev hrevne
    · have he : isPyWs e = false := by
        have : (c0 :: rest).reverse.headD ' ' = e := by rw [hrev]; rfl
        rw [reverse_headD] at this
        rw [hs] at h3
        rw [this] at h3
        exact h3
      unfold pyStrip stripEnds
      rw [hs, dropWhile_cons_false _ _ _ h2c, hrev,
        dropWhile_cons_false _ _ _ he, ← hrev, List.reverse_reverse, ← hs,
        str_mk_data]

theorem cleanArg_spec (s : String) (h : cleanArg s = true) :
    s.data ≠ [] ∧ (∀ c ∈ s.data, isLineBreak c = false)
      ∧ isPyWs (s.data.headD ' ') = false
      ∧ isPyWs (s.data.getLastD ' ') = false := by
  simp only [cleanArg, Bool.and_eq_true, Bool.not_eq_true', List.all_eq_true] at h
  obtain ⟨⟨⟨hne, hbr⟩, hhd⟩, hlast⟩ := h
  refine ⟨?_, ?_, hhd, hlast⟩
  · intro hc
    rw [hc] at hne
    exact absurd hne (by simp)
  · intro c hc
    have := hbr c hc
    simpa using this

theorem cleanArg_strip (s : String) (h : cleanArg s = true) : pyStrip s = s := by
  obtain ⟨h1, _, h3, h4⟩ := cleanArg_spec s h
  exact pyStrip_eq_self_of s h1 h3 h4

theorem cleanArg_no_nl (s : String) (h : cleanArg s = true) :
    ∀ c ∈ s.data, ¬(c = '\n') := by
  obtain ⟨_, h2, _, _⟩ := cleanArg_spec s h
  intro c hc he
  have := h2 c hc
  rw [he] at this
  exact absurd this (by decide)

/-- One-step unfolding of the block splitter with the match lookahead
expressed through `isMatchAt` and `List.drop`. -/
theorem splitAux_step (skip atStart : Bool) (cur : List Char) (c : Char)
    (cs : List Char) :
    splitAux skip atStart cur (c :: cs) =
      if skip && isPyWs c then splitAux true (c = '\n') cur cs
      else if atStart && isMatchAt (c :: cs) then
        String.mk cur.reverse
          :: splitAux true ((cs.drop 3).headD 'x' = '\n') [] (cs.drop 4)
      else splitAux false (c = '\n') (c :: cur) cs := by
  rcases cs with _ | ⟨c2, _ | ⟨c3, _ | ⟨c4, _ | ⟨c5, cs2⟩⟩⟩⟩
  · cases atStart <;> rfl
  · cases atStart <;> rfl
  · cases atStart <;> rfl
  · cases atStart <;> rfl
  · rfl

theorem noMatchB_cons_spec (a : Bool) (c : Char) (cs : List Char)
    (h : noMatchB a (c :: cs) = true) :
    (a && isMatchAt (c :: cs)) = false ∧ noMatchB (c = '\n') cs = true := by
  simp only [noMatchB, Bool.and_eq_true, Bool.not_eq_true'] at h
  exact h

/-- When no match occurs anywhere, the scanner accumulates everything into the
single current segment. -/
theorem splitAux_noMatch (cs : List Char) :
    ∀ (atStart : Bool) (cur : List Char), noMatchB atStart cs = true →
      splitAux false atStart cur cs = [String.mk (cur.reverse ++ cs)] := by
  induction cs with
  | nil =>
    intro a cur _
    simp [splitAux]
  | cons c cs ih =>
    intro a cur h
    obtain ⟨hm, hrest⟩ := noMatchB_cons_spec a c cs h
    rw [splitAux_step]
    simp only [Bool.false_and, Bool.false_eq_true, if_false, hm]
    rw [ih (c = '\n') (c :: cur) hrest]
    simp

theorem splitAux_skip_exit (t0 : Char) (T2 : List Char)
    (hws : isPyWs t0 = false) (hnm : noMatchB false (t0 :: T2) = true) :
    splitAux true false [] (t0 :: T2) = [String.mk (t0 :: T2)] := by
  obtain ⟨_, hrest⟩ := noMatchB_cons_spec false t0 T2 hnm
  rw [splitAux_step]
  simp only [hws, Bool.and_false, Bool.false_eq_true, if_false, Bool.false_and]
  rw [splitAux_noMatch T2 (t0 = '\n') [t0] hrest]
  simp

/-- Arriving at the literal `Host ` of the appended block (in line-start
context) always emits the current segment and then the final block segment. -/
theorem splitAux_at_H (t0 : Char) (T2 : List Char)
    (hws : isPyWs t0 = false) (hnm : noMatchB false (t0 :: T2) = true) :
    ∀ (sk : Bool) (cur2 : List Char),
      splitAux sk true cur2 ('H' :: 'o' :: 's' :: 't' :: ' ' :: t0 :: T2)
        = [String.mk cur2.reverse, String.mk (t0 :: T2)] := by
  intro sk cur2
  rw [splitAux_step]
  have h1 : (sk && isPyWs 'H') = false := by cases sk <;> decide
  have h2 : (true && isMatchAt ('H' :: 'o' :: 's' :: 't' :: ' ' :: t0 :: T2)) = true := by
    simp [isMatchAt, isHostWsMatch, isPyWs]
  rw [h1, if_neg Bool.false_ne_true, h2, if_pos rfl]
  have h3 : (('o' :: 's' :: 't' :: ' ' :: t0 :: T2).drop 3).headD 'x' = ' ' := rfl
  have h4 : ('o' :: 's' :: 't' :: ' ' :: t0 :: T2).drop 4 = t0 :: T2 := rfl
  rw [h3, h4]
  have h5 : ((' ' = '\n') : Bool) = false := by decide
  rw [h5, splitAux_skip_exit t0 T2 hws hnm]

/-- Base case of the reachability argument: the scanner standing directly on
the appended `\n` followed by `Host <...>`. -/
theorem splitAux_reach_base (t0 : Char) (T2 : List Char)
    (hws : isPyWs t0 = false) (hnm : noMatchB false (t0 :: T2) = true)
    (skip atStart : Bool) (cur : List Char) :
    ∃ init, init ≠ [] ∧
      splitAux skip atStart cur
          ('\n' :: 'H' :: 'o' :: 's' :: 't' :: ' ' :: t0 :: T2)
        = init ++ [String.mk (t0 :: T2)] := by
  cases skip with
  | true =>
    rw [splitAux_step]
    have h1 : (true && isPyWs '\n') = true := by decide
    have h2 : (('\n' = '\n') : Bool) = true := by decide
    rw [h1, if_pos rfl, h2, splitAux_at_H t0 T2 hws hnm true cur]
    exact ⟨[String.mk cur.reverse], by simp, rfl⟩
  | false =>
    rw [splitAux_step]
    have h1 : (false && isPyWs '\n') = false := by decide
    have h2 : (atStart && isMatchAt ('\n' :: 'H' :: 'o' :: 's' :: 't' :: ' ' :: t0 :: T2)) = false := by
      have hm : isMatchAt ('\n' :: 'H' :: 'o' :: 's' :: 't' :: ' ' :: t0 :: T2) = false := by
        simp [isMatchAt, isHostWsMatch]
      rw [hm, Bool.and_false]
    have h3 : (('\n' = '\n') : Bool) = true := by decide
    rw [h1, if_neg Bool.false_ne_true, h2, if_neg Bool.false_ne_true, h3,
      splitAux_at_H t0 T2 hws hnm false ('\n' :: cur)]
    exact ⟨[String.mk ('\n' :: cur).reverse], by simp, rfl⟩

/-- The scanner always reaches the appended `\nHost <name>...` block: whatever
precedes it, the final segment of the split is exactly the appended block
text. -/
theorem splitAux_reaches (t0 : Char) (T2 : List Char)
    (hws : isPyWs t0 = false) (hnm : noMatchB false (t0 :: T2) = true) :
    ∀ (n : Nat) (cs : List Char), cs.length ≤ n →
      ∀ (skip atStart : Bool) (cur : List Char),
      ∃ init, init ≠ [] ∧
        splitAux skip atStart cur
            (cs ++ '\n' :: 'H' :: 'o' :: 's' :: 't' :: ' ' :: t0 :: T2)
          = init ++ [String.mk (t0 :: T2)] := by
  intro n
  induction n with
  | zero =>
    intro cs hcs skip atStart cur
    have : cs = [] := List.eq_nil_of_length_eq_zero (Nat.le_zero.mp hcs)
    subst this
    simpa using splitAux_reach_base t0 T2 hws hnm skip atStart cur
  | succ n ih =>
    intro cs hcs skip atStart cur
    cases cs with
    | nil => simpa using splitAux_reach_base t0 T2 hws hnm skip atStart cur
    | cons c cs3 =>
      have hlen3 : cs3.length ≤ n := by
        simp only [List.length_cons] at hcs
        omega
      simp only [List.cons_append]
      rw [splitAux_step]
      by_cases h1 : (skip && isPyWs c) = true
      · rw [if_pos h1]
        exact ih cs3 hlen3 true (c = '\n') cur
      · rw [if_neg h1]
        by_cases h2 : (atStart && isMatchAt
            (c :: (cs3 ++ '\n' :: 'H' :: 'o' :: 's' :: 't' :: ' ' :: t0 :: T2))) = true
        · rw [if_pos h2]
          rcases cs3 with _ | ⟨d2, _ | ⟨d3, _ | ⟨d4, _ | ⟨d5, cs5⟩⟩⟩⟩
          · exfalso
            simp [isMatchAt, isHostWsMatch] at h2
          · exfalso
            simp [isMatchAt, isHostWsMatch] at h2
          · exfalso
            simp [isMatchAt, isHostWsMatch] at h2
          · have h3 : (([d2, d3, d4] ++ '\n' :: 'H' :: 'o' :: 's' :: 't' :: ' ' :: t0 :: T2).drop 3).headD 'x' = '\n' := rfl
            have h4 : ([d2, d3, d4] ++ '\n' :: 'H' :: 'o' :: 's' :: 't' :: ' ' :: t0 :: T2).drop 4
                = 'H' :: 'o' :: 's' :: 't' :: ' ' :: t0 :: T2 := rfl
            rw [h3, h4]
            have h5 : (('\n' = '\n') : Bool) = true := by decide
            rw [h5, splitAux_at_H t0 T2 hws hnm true []]
            exact ⟨[String.mk cur.reverse, String.mk List.nil.reverse], by simp, by simp⟩
          · have h3 : ((d2 :: d3 :: d4 :: d5 :: cs5 ++ '\n' :: 'H' :: 'o' :: 's' :: 't' :: ' ' :: t0 :: T2).drop 3).headD 'x' = d5 := rfl
            have h4 : (d2 :: d3 :: d4 :: d5 :: cs5 ++ '\n' :: 'H' :: 'o' :: 's' :: 't' :: ' ' :: t0 :: T2).drop 4
                = cs5 ++ '\n' :: 'H' :: 'o' :: 's' :: 't' :: ' ' :: t0 :: T2 := rfl
            rw [h3, h4]
            have hlen5 : cs5.length ≤ n := by
              simp only [List.length_cons] at hcs
              omega
            obtain ⟨init, hne, heq⟩ := ih cs5 hlen5 true (d5 = '\n') []
            rw [heq]
            exact ⟨String.mk cur.reverse :: init, by simp, by simp⟩
        · rw [if_neg h2]
          exact ih cs3 hlen3 false (c = '\n') (c :: cur)

theorem str_ext_data (s t : String) (h : s.data = t.data) : s = t := by
  rw [← str_mk_data s, ← str_mk_data t, h]

theorem str_append_assoc (a b c : String) : a ++ b ++ c = a ++ (b ++ c) := by
  apply str_ext_data
  rw [str_data_append, str_data_append, str_data_append, str_data_append,
    List.append_assoc]

theorem headD_append {α} (xs ys : List α) (d : α) (h : xs ≠ []) :
    (xs ++ ys).headD d = xs.headD d := by
  cases xs with
  | nil => exact absurd rfl h
  | cons a t => rfl

theorem getLastD_irrel {α} (ys : List α) (h : ys ≠ []) (a b : α) :
    ys.getLastD a = ys.getLastD b := by
  cases ys with
  | nil => exact absurd rfl h
  | cons y t => rw [List.getLastD_cons, List.getLastD_cons]

theorem getLastD_append {α} (xs ys : List α) (d : α) (h : ys ≠ []) :
    (xs ++ ys).getLastD d = ys.getLastD d := by
  induction xs with
  | nil => rfl
  | cons x t ih =>
    have hne : t ++ ys ≠ [] := by
      intro he
      rcases List.append_eq_nil.mp he with ⟨_, h2⟩
      exact h h2
    rw [List.cons_append, List.getLastD_cons, getLastD_irrel (t ++ ys) hne x d, ih]

theorem dropWhile_eq_self_of_head (cs : List Char) (h : cs ≠ [])
    (hh : isPyWs (cs.headD ' ') = false) : cs.dropWhile isPyWs = cs := by
  cases cs with
  | nil => rfl
  | cons c t => exact dropWhile_cons_false _ _ _ (by simpa using hh)

theorem dropTrailing_eq_self (cs : List Char) (h : cs ≠ [])
    (hl : isPyWs (cs.getLastD ' ') = false) :
    (cs.reverse.dropWhile isPyWs).reverse = cs := by
  have hrevne : cs.reverse ≠ [] := by simpa using h
  have hh : isPyWs (cs.reverse.headD ' ') = false := by
    rw [reverse_headD]
    exact hl
  rw [dropWhile_eq_self_of_head cs.reverse hrevne hh, List.reverse_reverse]

/-- Stripping a line made of whitespace padding, then a non-blank core ending
in a clean tail, removes exactly the padding. -/
theorem pyStrip_pad (pad mid s2 : String)
    (hpad : ∀ c ∈ pad.data, isPyWs c = true)
    (hm0 : mid.data ≠ []) (hmh : isPyWs (mid.data.headD ' ') = false)
    (hs0 : s2.data ≠ []) (hsl : isPyWs (s2.data.getLastD ' ') = false) :
    pyStrip (pad ++ (mid ++ s2)) = mid ++ s2 := by
  unfold pyStrip stripEnds
  have hd : (pad ++ (mid ++ s2)).data = pad.data ++ (mid.data ++ s2.data) := by
    rw [str_data_append, str_data_append]
  have hrest : mid.data ++ s2.data ≠ [] := by
    intro he
    rcases List.append_eq_nil.mp he with ⟨h1, _⟩
    exact hm0 h1
  rw [hd, dropWhile_append_all _ _ _ hpad,
    dropWhile_eq_self_of_head _ hrest (by rw [headD_append _ _ _ hm0]; exact hmh),
    dropTrailing_eq_self _ hrest (by rw [getLastD_append _ _ _ hs0]; exact hsl),
    ← str_data_append, str_mk_data]

theorem splitOnceAux_no_space (ks : List Char) :
    ∀ (acc s2 : List Char), (∀ c ∈ ks, ¬(c = ' ')) →
      splitOnceAux acc (ks ++ ' ' :: s2)
        = some (String.mk (acc.reverse ++ ks), String.mk s2) := by
  induction ks with
  | nil =>
    intro acc s2 _
    simp [splitOnceAux]
  | cons k ks ih =>
    intro acc s2 h
    have hk := h k (List.mem_cons_self k ks)
    simp only [List.cons_append, splitOnceAux, if_neg hk, List.append_eq]
    rw [ih (k :: acc) s2 (fun c hc => h c (List.mem_cons_of_mem k hc))]
    simp

theorem pySplitOnceSpace_concat (k v : String) (h : ∀ c ∈ k.data, ¬(c = ' ')) :
    pySplitOnceSpace (k ++ (" " ++ v)) = some (k, v) := by
  unfold pySplitOnceSpace
  have hd : (k ++ (" " ++ v)).data = k.data ++ ' ' :: v.data := by
    rw [str_data_append, str_data_append]
    rfl
  rw [hd, splitOnceAux_no_space k.data [] v.data h]
  simp [str_mk_data]

theorem startsWith_hash_false (l : String) (c0 : Char) (rest : List Char)
    (hl : l.data = c0 :: rest) (hc : ¬(c0 = '#')) :
    pyStartsWith l "#" = false := by
  unfold pyStartsWith
  rw [hl]
  show List.isPrefixOf ['#'] (c0 :: rest) = false
  simp only [List.isPrefixOf, Bool.and_eq_false_iff]
  left
  simp [beq_iff_eq]
  exact fun he => hc he.symm

/-- Processing one line of the form `    <key> <value>` written by
`add_ssh_config`: it stores `key -> value`. -/
theorem parse_directive_line (acc : List (String × String)) (key s : String)
    (hk0 : key.data ≠ [])
    (hkws : ∀ c ∈ key.data, isPyWs c = false)
    (hkhash : ¬(key.data.headD ' ' = '#'))
    (hs : cleanArg s = true) :
    parse_directive_step acc ("    " ++ key ++ " " ++ s) = dictSet acc key s := by
  obtain ⟨hs0, _, _, hsl⟩ := cleanArg_spec s hs
  have hassoc : "    " ++ key ++ " " ++ s = "    " ++ (key ++ (" " ++ s)) := by
    rw [str_append_assoc, str_append_assoc]
  have hsp0 : (" " ++ s).data ≠ [] := by
    rw [str_data_append]
    simp
  have hspl : isPyWs ((" " ++ s).data.getLastD ' ') = false := by
    rw [str_data_append, getLastD_append _ _ _ hs0]
    exact hsl
  have hstrip : pyStrip ("    " ++ (key ++ (" " ++ s))) = key ++ (" " ++ s) :=
    pyStrip_pad "    " key (" " ++ s) (by decide) hk0
      (by
        have := hkws (key.data.headD ' ') (headD_mem key.data ' ' hk0)
        exact this)
      hsp0 hspl
  rcases hkd : key.data with _ | ⟨k0, krest⟩
  · exact absurd hkd hk0
  have hld : (key ++ (" " ++ s)).data = k0 :: (krest ++ (" " ++ s).data) := by
    rw [str_data_append, hkd]
    rfl
  have hlne : ¬(key ++ (" " ++ s) = "") := by
    intro he
    have := congrArg String.data he
    rw [hld] at this
    simp at this
  have hk0hash : ¬(k0 = '#') := by
    rw [hkd] at hkhash
    simpa using hkhash
  have hhash : pyStartsWith (key ++ (" " ++ s)) "#" = false :=
    startsWith_hash_false _ k0 _ hld hk0hash
  have hcond : (decide (key ++ (" " ++ s) = "")
      || pyStartsWith (key ++ (" " ++ s)) "#") = false := by
    rw [decide_eq_false hlne, hhash]
    rfl
  have hknospace : ∀ c ∈ key.data, ¬(c = ' ') := by
    intro c hc he
    have := hkws c hc
    rw [he] at this
    exact absurd this (by decide)
  have hsplit : pySplitOnceSpace (key ++ (" " ++ s)) = some (key, s) :=
    pySplitOnceSpace_concat key s hknospace
  have hkstrip : pyStrip key = key := by
    apply pyStrip_eq_self_of key hk0
    · exact hkws (key.data.headD ' ') (headD_mem key.data ' ' hk0)
    · exact hkws (key.data.getLastD ' ') (getLastD_mem key.data ' ' hk0)
  have hsstrip : pyStrip s = s := cleanArg_strip s hs
  rw [hassoc]
  simp only [parse_directive_step, hstrip, hcond, Bool.false_eq_true, if_false,
    hsplit, hkstrip, hsstrip]

theorem pySplitlinesAux_chunk (xs : List Char) :
    ∀ (cur ys : List Char), (∀ c ∈ xs, isLineBreak c = false) →
      pySplitlinesAux false cur (xs ++ '\n' :: ys)
        = String.mk (cur.reverse ++ xs)
            :: (if ys.isEmpty then [] else pySplitlinesAux false [] ys) := by
  induction xs with
  | nil =>
    intro cur ys _
    simp only [List.nil_append, pySplitlinesAux, Bool.false_and,
      Bool.false_eq_true, if_false]
    rw [if_pos (by decide : isLineBreak '\n' = true)]
    rw [show ((('\n' = '\r') : Bool)) = false from by decide]
    simp
  | cons x xs ih =>
    intro cur ys h
    have hx := h x (List.mem_cons_self x xs)
    simp only [List.cons_append, pySplitlinesAux, Bool.false_and,
      Bool.false_eq_true, if_false, List.append_eq]
    rw [hx, if_neg Bool.false_ne_true]
    rw [ih (x :: cur) ys (fun c hc => h c (List.mem_cons_of_mem x hc))]
    simp

theorem joinNl_cons_data (l : String) (ls : List String) :
    (joinNl (l :: ls)).data = l.data ++ '\n' :: (joinNl ls).data := by
  show (l ++ "\n" ++ joinNl ls).data = _
  rw [str_data_append, str_data_append, List.append_assoc]
  rfl

theorem pySplitlines_joinNl (ls : List String)
    (h : ∀ l ∈ ls, ∀ c ∈ l.data, isLineBreak c = false) :
    pySplitlines (joinNl ls) = ls := by
  induction ls with
  | nil => rfl
  | cons l ls ih =>
    have hne : joinNl (l :: ls) ≠ "" := by
      intro he
      have := congrArg String.data he
      rw [joinNl_cons_data] at this
      simp at this
    rw [pySplitlines, if_neg hne, joinNl_cons_data,
      pySplitlinesAux_chunk l.data [] (joinNl ls).data
        (h l (List.mem_cons_self l ls))]
    have htail : (if (joinNl ls).data.isEmpty then []
        else pySplitlinesAux false [] (joinNl ls).data) = pySplitlines (joinNl ls) := by
      by_cases hj : (joinNl ls).data = []
      · have hjs : joinNl ls = "" := str_ext_data _ _ (by rw [hj])
        rw [hj, hjs]
        rfl
      · have hne2 : ¬(joinNl ls = "") := by
          intro he
          rw [he] at hj
          exact hj rfl
        rw [pySplitlines, if_neg hne2]
        have hf : (joinNl ls).data.isEmpty = false := by
          cases hc : (joinNl ls).data with
          | nil => exact absurd hc hj
          | cons a t => rfl
        rw [hf, if_neg Bool.false_ne_true]
    rw [htail, ih (fun a ha c hc => h a (List.mem_cons_of_mem l ha) c hc)]
    simp [str_mk_data]

theorem noMatchB_no_nl_append (xs ys : List Char)
    (h : ∀ c ∈ xs, ¬(c = '\n')) :
    noMatchB false (xs ++ ys) = noMatchB false ys := by
  induction xs with
  | nil => rfl
  | cons c t ih =>
    simp only [List.cons_append, noMatchB, Bool.false_and, Bool.not_false,
      Bool.true_and]
    rw [decide_eq_false (h c (List.mem_cons_self c t))]
    exact ih (fun a ha => h a (List.mem_cons_of_mem c ha))

theorem noMatchB_nl (ys : List Char) :
    noMatchB false ('\n' :: ys) = noMatchB true ys := by
  simp [noMatchB]

theorem isMatchAt_head_false (c : Char) (ys : List Char)
    (h1 : ¬(c = 'H')) (h2 : ¬(c = 'h')) : isMatchAt (c :: ys) = false := by
  rcases ys with _ | ⟨a, _ | ⟨b, _ | ⟨d, _ | ⟨e, t⟩⟩⟩⟩ <;>
    simp [isMatchAt, isHostWsMatch, h1, h2]

theorem noMatchB_indent (ln ys : List Char) (h : ∀ c ∈ ln, ¬(c = '\n')) :
    noMatchB true ((' ' :: ln) ++ '\n' :: ys) = noMatchB true ys := by
  have hm : isMatchAt (' ' :: (ln ++ '\n' :: ys)) = false :=
    isMatchAt_head_false _ _ (by decide) (by decide)
  simp only [List.cons_append, List.append_eq, noMatchB, hm, Bool.and_false,
    Bool.not_false, Bool.true_and]
  rw [decide_eq_false (by decide : ¬(' ' = '\n')),
    noMatchB_no_nl_append ln _ h, noMatchB_nl]

theorem noMatchB_joinNl_indented (ls : List String)
    (h : ∀ l ∈ ls, ∃ lr, l.data = ' ' :: lr ∧ ∀ c ∈ lr, ¬(c = '\n')) :
    noMatchB true (joinNl ls).data = true := by
  induction ls with
  | nil => rfl
  | cons l ls ih =>
    obtain ⟨lr, hl, hlr⟩ := h l (List.mem_cons_self l ls)
    rw [joinNl_cons_data, hl, noMatchB_indent lr _ hlr]
    exact ih (fun a ha => h a (List.mem_cons_of_mem l ha))

theorem natToCharsAux_digit (fuel : Nat) :
    ∀ (n : Nat), ∀ c ∈ natToCharsAux fuel n, ∃ d, d < 10 ∧ c = Char.ofNat (48 + d) := by
  induction fuel with
  | zero =>
    intro n c hc
    simp [natToCharsAux] at hc
  | succ fuel ih =>
    intro n c hc
    by_cases h : n < 10
    · simp only [natToCharsAux, if_pos h, List.mem_singleton] at hc
      exact ⟨n, h, hc⟩
    · simp only [natToCharsAux, if_neg h, List.mem_append, List.mem_singleton] at hc
      rcases hc with hc | hc
      · exact ih (n / 10) c hc
      · exact ⟨n % 10, Nat.mod_lt n (by omega), hc⟩

theorem digit_char_props :
    ∀ d, d < 10 → isPyWs (Char.ofNat (48 + d)) = false
      ∧ isLineBreak (Char.ofNat (48 + d)) = false := by decide

theorem natToCharsAux_ne_nil (fuel n : Nat) : natToCharsAux (fuel + 1) n ≠ [] := by
  by_cases h : n < 10 <;> simp [natToCharsAux, h]

theorem cleanArg_of_chars (s : String) (hne : s.data ≠ [])
    (h : ∀ c ∈ s.data, isPyWs c = false ∧ isLineBreak c = false) :
    cleanArg s = true := by
  simp only [cleanArg, Bool.and_eq_true, Bool.not_eq_true', List.all_eq_true]
  refine ⟨⟨⟨?_, ?_⟩, ?_⟩, ?_⟩
  · cases hs : s.data with
    | nil => exact absurd hs hne
    | cons a t => rfl
  · intro c hc
    simp [(h c hc).2]
  · exact (h _ (headD_mem s.data ' ' hne)).1
  · exact (h _ (getLastD_mem s.data ' ' hne)).1

theorem cleanArg_intToString (i : Int) : cleanArg (intToString i) = true := by
  cases i with
  | ofNat n =>
    apply cleanArg_of_chars
    · exact natToCharsAux_ne_nil n n
    · intro c hc
      obtain ⟨d, hd, hcd⟩ := natToCharsAux_digit (n + 1) n c hc
      rw [hcd]
      exact digit_char_props d hd
  | negSucc n =>
    apply cleanArg_of_chars
    · simp [intToString]
    · intro c hc
      rcases List.mem_cons.mp hc with hc | hc
      · rw [hc]
        exact ⟨by decide, by decide⟩
      · obtain ⟨d, hd, hcd⟩ := natToCharsAux_digit (n + 2) (n + 1) c hc
        rw [hcd]
        exact digit_char_props d hd

theorem directive_line_data (k v : String) :
    ("    " ++ k ++ " " ++ v).data
      = ' ' :: (' ' :: ' ' :: ' ' :: (k.data ++ ' ' :: v.data)) := by
  rw [str_data_append, str_data_append, str_data_append]
  have h4 : ("    " : String).data = [' ', ' ', ' ', ' '] := rfl
  have h1 : (" " : String).data = [' '] := rfl
  rw [h4, h1]
  simp

theorem directive_line_break_free (k v : String)
    (hk : ∀ c ∈ k.data, isLineBreak c = false) (hv : cleanArg v = true) :
    ∀ c ∈ ("    " ++ k ++ " " ++ v).data, isLineBreak c = false := by
  intro c hc
  rw [directive_line_data] at hc
  obtain ⟨_, hv2, _, _⟩ := cleanArg_spec v hv
  simp only [List.mem_cons, List.mem_append] at hc
  rcases hc with h | h | h | h | h
  · rw [h]; decide
  · rw [h]; decide
  · rw [h]; decide
  · rw [h]; decide
  · rcases h with h | h | h
    · exact hk c h
    · rw [h]; decide
    · exact hv2 c h

theorem directive_line_indented (k v : String)
    (hk : ∀ c ∈ k.data, isLineBreak c = false) (hv : cleanArg v = true) :
    ∃ lr, ("    " ++ k ++ " " ++ v).data = ' ' :: lr
      ∧ ∀ c ∈ lr, ¬(c = '\n') := by
  refine ⟨' ' :: ' ' :: ' ' :: (k.data ++ ' ' :: v.data), directive_line_data k v, ?_⟩
  intro c hc he
  have hbf := directive_line_break_free k v hk hv c
    (by rw [directive_line_data]; exact List.mem_cons_of_mem ' ' hc)
  rw [he] at hbf
  exact absurd hbf (by decide)

theorem foldl_directive_lines (kvs : List (String × String)) :
    ∀ (acc : List (String × String)),
      (∀ kv ∈ kvs, kv.1.data ≠ [] ∧ (∀ c ∈ kv.1.data, isPyWs c = false)
        ∧ ¬(kv.1.data.headD ' ' = '#') ∧ cleanArg kv.2 = true) →
      (kvs.map (fun kv => "    " ++ kv.1 ++ " " ++ kv.2)).foldl
          parse_directive_step acc
        = kvs.foldl (fun m kv => dictSet m kv.1 kv.2) acc := by
  induction kvs with
  | nil => intro acc _; rfl
  | cons kv kvs ih =>
    intro acc h
    obtain ⟨h1, h2, h3, h4⟩ := h kv (List.mem_cons_self kv kvs)
    simp only [List.map_cons, List.foldl_cons]
    rw [parse_directive_line acc kv.1 kv.2 h1 h2 h3 h4]
    exact ih _ (fun a ha => h a (List.mem_cons_of_mem kv ha))

/-- Parsing the block text written by `add_ssh_config` (name line plus
indented `key value` lines) produces exactly the dictionary built from the
pairs. -/
theorem parseBlock_joinNl (name : String) (kvs : List (String × String))
    (hn : cleanArg name = true)
    (hkvs : ∀ kv ∈ kvs, kv.1.data ≠ []
      ∧ (∀ c ∈ kv.1.data, isPyWs c = false ∧ isLineBreak c = false)
      ∧ ¬(kv.1.data.headD ' ' = '#') ∧ cleanArg kv.2 = true) :
    parseBlock (joinNl (name :: kvs.map (fun kv => "    " ++ kv.1 ++ " " ++ kv.2)))
      = some (kvs.foldl (fun m kv => dictSet m kv.1 kv.2) [("Name", name)]) := by
  obtain ⟨_, hn2, _, _⟩ := cleanArg_spec name hn
  have hsl : pySplitlines (joinNl (name :: kvs.map (fun kv => "    " ++ kv.1 ++ " " ++ kv.2)))
      = name :: kvs.map (fun kv => "    " ++ kv.1 ++ " " ++ kv.2) := by
    apply pySplitlines_joinNl
    intro l hl
    rcases List.mem_cons.mp hl with hl | hl
    · rw [hl]; exact hn2
    · obtain ⟨kv, hkv, hkveq⟩ := List.mem_map.mp hl
      rw [← hkveq]
      obtain ⟨_, hk2, _, hv⟩ := hkvs kv hkv
      exact directive_line_break_free kv.1 kv.2 (fun c hc => (hk2 c hc).2) hv
  simp only [parseBlock, hsl]
  rw [cleanArg_strip name hn,
    foldl_directive_lines kvs [("Name", name)]
      (fun kv hkv => ⟨(hkvs kv hkv).1, fun c hc => ((hkvs kv hkv).2.1 c hc).1,
        (hkvs kv hkv).2.2.1, (hkvs kv hkv).2.2.2⟩)]

/-- Appending `\nHost <name>\n<indented directives>` to any config content
makes the last parsed profile exactly the dictionary of those directives. -/
theorem parse_append_block (cfg name : String) (kvs : List (String × String))
    (hn : cleanArg name = true)
    (hkvs : ∀ kv ∈ kvs, kv.1.data ≠ []
      ∧ (∀ c ∈ kv.1.data, isPyWs c = false ∧ isLineBreak c = false)
      ∧ ¬(kv.1.data.headD ' ' = '#') ∧ cleanArg kv.2 = true) :
    (parse_ssh_config (cfg ++ ("\nHost "
        ++ joinNl (name :: kvs.map (fun kv => "    " ++ kv.1 ++ " " ++ kv.2))))).getLast?
      = some (kvs.foldl (fun m kv => dictSet m kv.1 kv.2) [("Name", name)]) := by
  obtain ⟨hn1, hn2, hn3, hn4⟩ := cleanArg_spec name hn
  rcases hnd : name.data with _ | ⟨t0, nrest⟩
  · exact absurd hnd hn1
  have hws : isPyWs t0 = false := by
    rw [hnd] at hn3
    simpa using hn3
  have hJd : (joinNl (name :: kvs.map (fun kv => "    " ++ kv.1 ++ " " ++ kv.2))).data
      = t0 :: (nrest
          ++ '\n' :: (joinNl (kvs.map (fun kv => "    " ++ kv.1 ++ " " ++ kv.2))).data) := by
    rw [joinNl_cons_data, hnd]
    rfl
  have hnm : noMatchB false
      (t0 :: (nrest
        ++ '\n' :: (joinNl (kvs.map (fun kv => "    " ++ kv.1 ++ " " ++ kv.2))).data)) = true := by
    rw [← hJd, joinNl_cons_data,
      noMatchB_no_nl_append name.data _ (cleanArg_no_nl name hn), noMatchB_nl]
    apply noMatchB_joinNl_indented
    intro l hl
    obtain ⟨kv, hkv, hkveq⟩ := List.mem_map.mp hl
    rw [← hkveq]
    exact directive_line_indented kv.1 kv.2
      (fun c hc => ((hkvs kv hkv).2.1 c hc).2) (hkvs kv hkv).2.2.2
  have hcd : (cfg ++ ("\nHost "
      ++ joinNl (name :: kvs.map (fun kv => "    " ++ kv.1 ++ " " ++ kv.2)))).data
      = cfg.data ++ '\n' :: 'H' :: 'o' :: 's' :: 't' :: ' '
          :: (t0 :: (nrest
            ++ '\n' :: (joinNl (kvs.map (fun kv => "    " ++ kv.1 ++ " " ++ kv.2))).data)) := by
    rw [str_data_append, str_data_append, hJd]
    rfl
  obtain ⟨init, hine, heq⟩ := splitAux_reaches t0
    (nrest ++ '\n' :: (joinNl (kvs.map (fun kv => "    " ++ kv.1 ++ " " ++ kv.2))).data)
    hws hnm cfg.data.length cfg.data le_rfl false true []
  have hblocks : splitHostBlocks (cfg ++ ("\nHost "
      ++ joinNl (name :: kvs.map (fun kv => "    " ++ kv.1 ++ " " ++ kv.2))))
      = init ++ [joinNl (name :: kvs.map (fun kv => "    " ++ kv.1 ++ " " ++ kv.2))] := by
    unfold splitHostBlocks
    rw [hcd, heq, ← hJd, str_mk_data]
  have hpb := parseBlock_joinNl name kvs hn hkvs
  rcases init with _ | ⟨i0, irest⟩
  · exact absurd rfl hine
  unfold parse_ssh_config
  rw [hblocks]
  have hdrop : ((i0 :: irest)
      ++ [joinNl (name :: kvs.map (fun kv => "    " ++ kv.1 ++ " " ++ kv.2))]).drop 1
      = irest ++ [joinNl (name :: kvs.map (fun kv => "    " ++ kv.1 ++ " " ++ kv.2))] := rfl
  rw [hdrop, List.filterMap_append]
  have hlast : List.filterMap parseBlock
      [joinNl (name :: kvs.map (fun kv => "    " ++ kv.1 ++ " " ++ kv.2))]
      = [kvs.foldl (fun m kv => dictSet m kv.1 kv.2) [("Name", name)]] := by
    simp [List.filterMap_cons, hpb]
  rw [hlast, List.getLast?_concat]

theorem dictSet_nil_eval (k v : String) : dictSet [] k v = [(k, v)] := rfl

theorem dictSet_cons_ne (k1 v1 k v : String) (t : List (String × String))
    (h : ¬(k1 = k)) : dictSet ((k1, v1) :: t) k v = (k1, v1) :: dictSet t k v := by
  simp [dictSet, h]

theorem dictGet_cons_eq (k v1 : String) (t : List (String × String)) :
    dictGet k ((k, v1) :: t) = some v1 := by
  simp [dictGet]

theorem dictGet_cons_ne (k k1 v1 : String) (t : List (String × String))
    (h : ¬(k1 = k)) : dictGet k ((k1, v1) :: t) = dictGet k t := by
  simp [dictGet, h]

theorem kv_bundle (k v : String) (hk1 : k.data ≠ [])
    (hk2 : ∀ c ∈ k.data, isPyWs c = false ∧ isLineBreak c = false)
    (hk3 : ¬(k.data.headD ' ' = '#')) (hv : cleanArg v = true) :
    (k, v).1.data ≠ []
      ∧ (∀ c ∈ (k, v).1.data, isPyWs c = false ∧ isLineBreak c = false)
      ∧ ¬((k, v).1.data.headD ' ' = '#') ∧ cleanArg (k, v).2 = true :=
  ⟨hk1, hk2, hk3, hv⟩

/-- C6 (amended): for arguments that are nonempty, contain no line-break
characters, and neither start nor end with whitespace (`cleanArg`), and
likewise for the identity file when supplied, `add_ssh_config` followed by
`parse_ssh_config` yields, as the last parsed profile, one whose `Name`,
`HostName`, `User` and `Port` (rendered in decimal) equal the arguments, and
whose `IdentityFile` equals the supplied path.  (The claim as frozen, for
arbitrary arguments, is refuted by the recorded counterexample.) -/
theorem c6_add_then_parse (cfg name hostname user : String) (port : Int)
    (identity_file : Option String)
    (hn : cleanArg name = true) (hh : cleanArg hostname = true)
    (hu : cleanArg user = true)
    (hi : ∀ s, identity_file = some s → cleanArg s = true) :
    ∃ p, (parse_ssh_config
        (add_ssh_config cfg name hostname user port identity_file)).getLast? = some p
      ∧ dictGet "Name" p = some name
      ∧ dictGet "HostName" p = some hostname
      ∧ dictGet "User" p = some user
      ∧ dictGet "Port" p = some (intToString port)
      ∧ (∀ s, identity_file = some s → dictGet "IdentityFile" p = some s) := by
  have hl3 : ("    HostName " : String).data
      = [' ', ' ', ' ', ' ', 'H', 'o', 's', 't', 'N', 'a', 'm', 'e', ' '] := rfl
  have hl4 : ("    User " : String).data
      = [' ', ' ', ' ', ' ', 'U', 's', 'e', 'r', ' '] := rfl
  have hl5 : ("    Port " : String).data
      = [' ', ' ', ' ', ' ', 'P', 'o', 'r', 't', ' '] := rfl
  have hl6 : ("    IdentityFile " : String).data
      = [' ', ' ', ' ', ' ', 'I', 'd', 'e', 'n', 't', 'i', 't', 'y', 'F', 'i', 'l',
         'e', ' '] := rfl
  have hl7 : ("    " : String).data = [' ', ' ', ' ', ' '] := rfl
  have hl8 : (" " : String).data = [' '] := rfl
  have hl9 : ("HostName" : String).data = ['H', 'o', 's', 't', 'N', 'a', 'm', 'e'] := rfl
  have hl10 : ("User" : String).data = ['U', 's', 'e', 'r'] := rfl
  have hl11 : ("Port" : String).data = ['P', 'o', 'r', 't'] := rfl
  have hl12 : ("IdentityFile" : String).data
      = ['I', 'd', 'e', 'n', 't', 'i', 't', 'y', 'F', 'i', 'l', 'e'] := rfl
  have hl13 : ("" : String).data = [] := rfl
  have hl2 : ("\n" : String).data = ['\n'] := rfl
  have hport := cleanArg_intToString port
  have hkey3 : ∀ kv ∈ [("HostName", hostname), ("User", user),
      ("Port", intToString port)], kv.1.data ≠ []
      ∧ (∀ c ∈ kv.1.data, isPyWs c = false ∧ isLineBreak c = false)
      ∧ ¬(kv.1.data.headD ' ' = '#') ∧ cleanArg kv.2 = true := by
    intro kv hkv
    simp only [List.mem_cons, List.not_mem_nil, or_false] at hkv
    rcases hkv with h | h | h <;> rw [h]
    · exact kv_bundle "HostName" hostname (by decide) (by decide) (by decide) hh
    · exact kv_bundle "User" user (by decide) (by decide) (by decide) hu
    · exact kv_bundle "Port" (intToString port) (by decide) (by decide) (by decide) hport
  cases identity_file with
  | none =>
    have hadd : add_ssh_config cfg name hostname user port none
        = cfg ++ ("\nHost " ++ joinNl (name :: ([("HostName", hostname),
            ("User", user), ("Port", intToString port)]).map
            (fun kv => "    " ++ kv.1 ++ " " ++ kv.2))) := by
      apply str_ext_data
      simp only [add_ssh_config, joinNl, List.map_cons, List.map_nil,
        str_data_append, hl2, hl3, hl4, hl5, hl7, hl8, hl9, hl10, hl11, hl13]
      simp [List.append_assoc]
    rw [hadd, parse_append_block cfg name _ hn hkey3]
    refine ⟨_, rfl, ?_, ?_, ?_, ?_, ?_⟩
    · simp [dictSet, dictGet]
    · simp [dictSet, dictGet]
    · simp [dictSet, dictGet]
    · simp [dictSet, dictGet]
    · intro s hs
      exact absurd hs (by simp)
  | some s =>
    have hs := hi s rfl
    obtain ⟨hs1, _, _, _⟩ := cleanArg_spec s hs
    have hsne : ¬(s = "") := by
      intro he
      rw [he] at hs1
      exact hs1 rfl
    have hkey4 : ∀ kv ∈ [("HostName", hostname), ("User", user),
        ("Port", intToString port), ("IdentityFile", s)], kv.1.data ≠ []
        ∧ (∀ c ∈ kv.1.data, isPyWs c = false ∧ isLineBreak c = false)
        ∧ ¬(kv.1.data.headD ' ' = '#') ∧ cleanArg kv.2 = true := by
      intro kv hkv
      simp only [List.mem_cons, List.not_mem_nil, or_false] at hkv
      rcases hkv with h | h | h | h <;> rw [h]
      · exact kv_bundle "HostName" hostname (by decide) (by decide) (by decide) hh
      · exact kv_bundle "User" user (by decide) (by decide) (by decide) hu
      · exact kv_bundle "Port" (intToString port) (by decide) (by decide) (by decide) hport
      · exact kv_bundle "IdentityFile" s (by decide) (by decide) (by decide) hs
    have hadd : add_ssh_config cfg name hostname user port (some s)
        = cfg ++ ("\nHost " ++ joinNl (name :: ([("HostName", hostname),
            ("User", user), ("Port", intToString port),
            ("IdentityFile", s)]).map
            (fun kv => "    " ++ kv.1 ++ " " ++ kv.2))) := by
      apply str_ext_data
      simp only [add_ssh_config, if_neg hsne, joinNl, List.map_cons, List.map_nil,
        str_data_append, hl2, hl3, hl4, hl5, hl6, hl7, hl8, hl9, hl10, hl11,
        hl12, hl13]
      simp [List.append_assoc]
    rw [hadd, parse_append_block cfg name _ hn hkey4]
    refine ⟨_, rfl, ?_, ?_, ?_, ?_, ?_⟩
    · simp [dictSet, dictGet]
    · simp [dictSet, dictGet]
    · simp [dictSet, dictGet]
    · simp [dictSet, dictGet]
    · intro s2 hs2
      injection hs2 with hs2
      subst hs2
      simp [dictSet, dictGet]

/-- C6 counterexample to the claim as frozen, which quantifies over every
choice of arguments: with `hostname = ""` the written line `    HostName `
strips to the single token `HostName`, `split(' ', 1)` yields one part and the
directive is skipped, so no parsed profile reports `HostName = ""`. -/
theorem c6_counterexample :
    ¬ ∃ p ∈ parse_ssh_config (add_ssh_config "" "web" "" "u" 22 none),
      dictGet "HostName" p = some "" := by decide

theorem c6_witness :
    ∃ p, (parse_ssh_config (add_ssh_config "Host a\n    HostName 1.1.1.1\n"
        "web" "9.9.9.9" "root" 2222 (some "~/.ssh/id_ed25519"))).getLast? = some p
      ∧ dictGet "Name" p = some "web"
      ∧ dictGet "HostName" p = some "9.9.9.9"
      ∧ dictGet "User" p = some "root"
      ∧ dictGet "Port" p = some (intToString 2222)
      ∧ (∀ s, (some "~/.ssh/id_ed25519" : Option String) = some s →
          dictGet "IdentityFile" p = some s) :=
  c6_add_then_parse "Host a\n    HostName 1.1.1.1\n" "web" "9.9.9.9" "root" 2222
    (some "~/.ssh/id_ed25519") (by decide) (by decide) (by decide)
    (by intro s h; cases h; decide)
